import Mathlib

/-!
# Verification of the rampeditor palette core

Shallow embedding of the `rampeditor-rs` repository (addressing, undo/history,
ramp insertion) together with proofs about the embedded definitions.

Machine integers (`u16`, `u8`) are embedded as `Nat` with explicit `% 2^16`
and `% 2^8` at the points where the Rust code performs wrapping arithmetic
(`wrapping_add`).  A Rust `panic!` is embedded as `Option.none`; a recoverable
`Err` value as `Except.error`.
-/

namespace Rampeditor

/-- Embedding of `Address` from `src/address.rs`: `{page: u16, line: u8, column: u8}`.
The fields are embedded as `Nat`; theorems that depend on the machine-width
carry explicit range hypotheses (`page ≤ 65535`, `line ≤ 255`, `column ≤ 255`). -/
structure Address where
  page : Nat
  line : Nat
  column : Nat
deriving DecidableEq

/-- Embedding of `Address::wrapped_next` from `src/address.rs`, with the Rust panic embedded
explicitly: `none` models the `panic!` raised by `%` with a zero divisor
(`next.column % columns` when `columns == 0`, `next.line % lines` when the
column wrapped and `lines == 0`).  `wrapping_add(1)` on `u8`/`u16` is
`(· + 1) % 256` / `(· + 1) % 65536`. -/
def Address.wrapped_next_checked (a : Address) (pages lines columns : Nat) :
    Option Address :=
  let col1 := (a.column + 1) % 256
  if columns = 0 then none
  else if col1 % columns = 0 then
    let line1 := (a.line + 1) % 256
    if lines = 0 then none
    else if line1 % lines = 0 then
      let page1 := (a.page + 1) % 65536
      some ⟨if pages ≤ page1 then 0 else page1, 0, 0⟩
    else some ⟨a.page, line1, 0⟩
  else some ⟨a.page, a.line, col1⟩

/-- Embedding of `Address::wrapped_next` under the intended calling convention (nonzero
`lines` and `columns` bounds, so no divisor of the two `%` operations is zero
and no panic can occur).  `wrapped_next_checked_eq_some` proves that this
total function agrees with the panic-aware embedding there. -/
def Address.wrapped_next (a : Address) (pages lines columns : Nat) : Address :=
  let col1 := (a.column + 1) % 256
  if col1 % columns = 0 then
    let line1 := (a.line + 1) % 256
    if line1 % lines = 0 then
      let page1 := (a.page + 1) % 65536
      ⟨if pages ≤ page1 then 0 else page1, 0, 0⟩
    else ⟨a.page, line1, 0⟩
  else ⟨a.page, a.line, col1⟩

theorem wrapped_next_checked_eq_some (a : Address) (pages lines columns : Nat)
    (hl : 1 ≤ lines) (hc : 1 ≤ columns) :
    a.wrapped_next_checked pages lines columns =
      some (a.wrapped_next pages lines columns) := by
  unfold Address.wrapped_next_checked Address.wrapped_next
  have hc0 : ¬ columns = 0 := by omega
  have hl0 : ¬ lines = 0 := by omega
  simp only [hc0, hl0, if_false]
  split
  · split <;> rfl
  · rfl

/-- The address lies strictly inside the supplied bounds. -/
def inBounds (pages lines columns : Nat) (a : Address) : Prop :=
  a.page < pages ∧ a.line < lines ∧ a.column < columns

instance (pages lines columns : Nat) (a : Address) :
    Decidable (inBounds pages lines columns a) := by
  unfold inBounds; infer_instance

/-- Mixed-radix successor on in-bounds addresses: advance the column, carrying
into the line, then the page, wrapping the page to `0` at `pages`. -/
def succAddr (pages lines columns : Nat) (a : Address) : Address :=
  if a.column + 1 < columns then ⟨a.page, a.line, a.column + 1⟩
  else if a.line + 1 < lines then ⟨a.page, a.line + 1, 0⟩
  else if a.page + 1 < pages then ⟨a.page + 1, 0, 0⟩
  else ⟨0, 0, 0⟩

theorem mod_eq_zero_iff_eq {x c : Nat} (h1 : 0 < x) (h2 : x ≤ c) :
    x % c = 0 ↔ x = c := by
  constructor
  · intro h
    exact Nat.le_antisymm h2 (Nat.le_of_dvd h1 (Nat.dvd_of_mod_eq_zero h))
  · intro h
    subst h
    exact Nat.mod_self x

/-- On an in-bounds address with bounds inside the machine ranges,
`wrapped_next` computes exactly the mixed-radix successor. -/
theorem wrapped_next_eq_succAddr (a : Address) (pages lines columns : Nat)
    (hp : 1 ≤ pages) (hp' : pages ≤ 65535)
    (hl : 1 ≤ lines) (hl' : lines ≤ 255)
    (hc : 1 ≤ columns) (hc' : columns ≤ 255)
    (hb : inBounds pages lines columns a) :
    a.wrapped_next pages lines columns = succAddr pages lines columns a := by
  obtain ⟨hbp, hbl, hbc⟩ := hb
  unfold Address.wrapped_next succAddr
  have e1 : (a.column + 1) % 256 = a.column + 1 := Nat.mod_eq_of_lt (by omega)
  have e2 : (a.line + 1) % 256 = a.line + 1 := Nat.mod_eq_of_lt (by omega)
  have e3 : (a.page + 1) % 65536 = a.page + 1 := Nat.mod_eq_of_lt (by omega)
  simp only [e1, e2, e3]
  have hcz : (a.column + 1) % columns = 0 ↔ a.column + 1 = columns :=
    mod_eq_zero_iff_eq (by omega) (by omega)
  have hlz : (a.line + 1) % lines = 0 ↔ a.line + 1 = lines :=
    mod_eq_zero_iff_eq (by omega) (by omega)
  simp only [hcz, hlz]
  split_ifs <;> simp only [Address.mk.injEq] <;> omega

theorem succAddr_inBounds (pages lines columns : Nat) (a : Address)
    (hp : 1 ≤ pages) (hl : 1 ≤ lines) (hc : 1 ≤ columns)
    (hb : inBounds pages lines columns a) :
    inBounds pages lines columns (succAddr pages lines columns a) := by
  obtain ⟨hbp, hbl, hbc⟩ := hb
  unfold succAddr inBounds
  split_ifs <;> refine ⟨?_, ?_, ?_⟩ <;> dsimp only <;> omega

/-- The address a column-carry lands on: next line, or next page, or wrap. -/
def lineCarry (pages lines : Nat) (p l : Nat) : Address :=
  if l + 1 < lines then ⟨p, l + 1, 0⟩
  else if p + 1 < pages then ⟨p + 1, 0, 0⟩
  else ⟨0, 0, 0⟩

theorem succAddr_colCycle (pages lines columns : Nat) (p l : Nat) :
    ∀ n c, c + n + 1 = columns →
      (succAddr pages lines columns)^[n + 1] ⟨p, l, c⟩ = lineCarry pages lines p l := by
  intro n
  induction n with
  | zero =>
    intro c hcs
    have h1 : ¬ c + 1 < columns := by omega
    rw [Nat.zero_add, Function.iterate_one]
    simp only [succAddr, lineCarry, h1, if_false]
  | succ m ih =>
    intro c hcs
    rw [Function.iterate_succ_apply]
    have h1 : c + 1 < columns := by omega
    have e : succAddr pages lines columns ⟨p, l, c⟩ = ⟨p, l, c + 1⟩ := by
      simp only [succAddr, h1, if_true]
    rw [e, ih (c + 1) (by omega)]

theorem succAddr_colCycle_full (pages lines columns : Nat) (hc : 1 ≤ columns)
    (p l : Nat) :
    (succAddr pages lines columns)^[columns] ⟨p, l, 0⟩ = lineCarry pages lines p l := by
  have h := succAddr_colCycle pages lines columns p l (columns - 1) 0 (by omega)
  have e : columns - 1 + 1 = columns := by omega
  rw [e] at h
  exact h

theorem succAddr_lineCycle (pages lines columns : Nat) (hc : 1 ≤ columns) (p : Nat) :
    ∀ m l, l + m + 1 = lines →
      (succAddr pages lines columns)^[(m + 1) * columns] ⟨p, l, 0⟩ =
        (if p + 1 < pages then ⟨p + 1, 0, 0⟩ else ⟨0, 0, 0⟩) := by
  intro m
  induction m with
  | zero =>
    intro l hls
    rw [Nat.zero_add, one_mul, succAddr_colCycle_full pages lines columns hc p l]
    have h1 : ¬ l + 1 < lines := by omega
    simp only [lineCarry, h1, if_false]
  | succ m ih =>
    intro l hls
    have e : (m + 1 + 1) * columns = (m + 1) * columns + columns := by ring
    rw [e, Function.iterate_add_apply,
      succAddr_colCycle_full pages lines columns hc p l]
    have h1 : l + 1 < lines := by omega
    simp only [lineCarry, h1, if_true]
    exact ih (l + 1) (by omega)

theorem succAddr_lineCycle_full (pages lines columns : Nat)
    (hl : 1 ≤ lines) (hc : 1 ≤ columns) (p : Nat) :
    (succAddr pages lines columns)^[lines * columns] ⟨p, 0, 0⟩ =
      (if p + 1 < pages then ⟨p + 1, 0, 0⟩ else ⟨0, 0, 0⟩) := by
  have h := succAddr_lineCycle pages lines columns hc p (lines - 1) 0 (by omega)
  have e : lines - 1 + 1 = lines := by omega
  rw [e] at h
  exact h

theorem succAddr_pageCycle (pages lines columns : Nat)
    (hl : 1 ≤ lines) (hc : 1 ≤ columns) :
    ∀ k p, p + k + 1 = pages →
      (succAddr pages lines columns)^[(k + 1) * (lines * columns)] ⟨p, 0, 0⟩ =
        ⟨0, 0, 0⟩ := by
  intro k
  induction k with
  | zero =>
    intro p hps
    rw [Nat.zero_add, one_mul, succAddr_lineCycle_full pages lines columns hl hc p]
    have h1 : ¬ p + 1 < pages := by omega
    simp only [h1, if_false]
  | succ k ih =>
    intro p hps
    have e : (k + 1 + 1) * (lines * columns) =
        (k + 1) * (lines * columns) + lines * columns := by ring
    rw [e, Function.iterate_add_apply,
      succAddr_lineCycle_full pages lines columns hl hc p]
    have h1 : p + 1 < pages := by omega
    simp only [h1, if_true]
    exact ih (p + 1) (by omega)

/-- Iterating `wrapped_next` agrees with iterating the mixed-radix successor
as long as the start address is in bounds. -/
theorem wrapped_next_iterate_eq (pages lines columns : Nat)
    (hp : 1 ≤ pages) (hp' : pages ≤ 65535)
    (hl : 1 ≤ lines) (hl' : lines ≤ 255)
    (hc : 1 ≤ columns) (hc' : columns ≤ 255) :
    ∀ n a, inBounds pages lines columns a →
      (fun x => Address.wrapped_next x pages lines columns)^[n] a =
        (succAddr pages lines columns)^[n] a := by
  intro n
  induction n with
  | zero => intro a _; rfl
  | succ m ih =>
    intro a hb
    rw [Function.iterate_succ_apply, Function.iterate_succ_apply]
    have e : Address.wrapped_next a pages lines columns =
        succAddr pages lines columns a :=
      wrapped_next_eq_succAddr a pages lines columns hp hp' hl hl' hc hc' hb
    simp only [e]
    exact ih (succAddr pages lines columns a)
      (succAddr_inBounds pages lines columns a hp hl hc hb)

/-- C6 counterexample: with `columns = 0` the source evaluates
`next.column % columns`, a remainder by zero, which panics; the panic-aware
embedding returns `none` rather than an `Address`. -/
theorem wrapped_next_panics_on_zero_columns :
    Address.wrapped_next_checked ⟨0, 0, 0⟩ 1 1 0 = none := by rfl

/-- C6 (amended): for every address and every bounds triple with
`lines ≥ 1` and `columns ≥ 1` (pages unrestricted, including `0`),
`wrapped_next` returns an address without panicking: the panic-aware
embedding returns `some` of the total function's value. -/
theorem wrapped_next_total_of_nonzero (a : Address) (pages lines columns : Nat)
    (hl : 1 ≤ lines) (hc : 1 ≤ columns) :
    a.wrapped_next_checked pages lines columns =
      some (a.wrapped_next pages lines columns) :=
  wrapped_next_checked_eq_some a pages lines columns hl hc

theorem wrapped_next_total_of_nonzero_witness :
    1 ≤ 3 ∧ 1 ≤ 7 ∧
      Address.wrapped_next_checked ⟨9, 9, 9⟩ 0 3 7 =
        some (Address.wrapped_next ⟨9, 9, 9⟩ 0 3 7) :=
  ⟨by decide, by decide,
    wrapped_next_total_of_nonzero ⟨9, 9, 9⟩ 0 3 7 (by decide) (by decide)⟩

/-- C7: for bounds with `pages, lines, columns ≥ 1` (and within the `u16`/`u8`
machine ranges of the source's types), iterating `wrapped_next`
exactly `pages * lines * columns` times from `(0,0,0)` returns `(0,0,0)`. -/
theorem wrapped_next_full_cycle (pages lines columns : Nat)
    (hp : 1 ≤ pages) (hp' : pages ≤ 65535)
    (hl : 1 ≤ lines) (hl' : lines ≤ 255)
    (hc : 1 ≤ columns) (hc' : columns ≤ 255) :
    (fun x => Address.wrapped_next x pages lines columns)^[pages * lines * columns]
      ⟨0, 0, 0⟩ = ⟨0, 0, 0⟩ := by
  rw [wrapped_next_iterate_eq pages lines columns hp hp' hl hl' hc hc'
    (pages * lines * columns) ⟨0, 0, 0⟩ ⟨hp, hl, hc⟩]
  obtain ⟨k, hk⟩ : ∃ k, k + 1 = pages := ⟨pages - 1, by omega⟩
  have e : pages * lines * columns = (k + 1) * (lines * columns) := by
    rw [← hk]; ring
  rw [e]
  exact succAddr_pageCycle pages lines columns hl hc k 0 (by omega)

theorem wrapped_next_full_cycle_witness :
    (1 ≤ 2 ∧ 2 ≤ 65535 ∧ 1 ≤ 3 ∧ 3 ≤ 255 ∧ 1 ≤ 2 ∧ 2 ≤ 255) ∧
      (fun x => Address.wrapped_next x 2 3 2)^[2 * 3 * 2] ⟨0, 0, 0⟩ = ⟨0, 0, 0⟩ :=
  ⟨by decide,
    wrapped_next_full_cycle 2 3 2 (by decide) (by decide) (by decide) (by decide)
      (by decide) (by decide)⟩

/-- C9: `wrapped_next` preserves in-bounds addresses when the bounds are at
least `1` (and within the machine ranges of the source's `u16`/`u8` types). -/
theorem wrapped_next_preserves_inBounds (a : Address) (pages lines columns : Nat)
    (hp : 1 ≤ pages) (hp' : pages ≤ 65535)
    (hl : 1 ≤ lines) (hl' : lines ≤ 255)
    (hc : 1 ≤ columns) (hc' : columns ≤ 255)
    (hb : inBounds pages lines columns a) :
    inBounds pages lines columns (a.wrapped_next pages lines columns) := by
  rw [wrapped_next_eq_succAddr a pages lines columns hp hp' hl hl' hc hc' hb]
  exact succAddr_inBounds pages lines columns a hp hl hc hb

theorem wrapped_next_preserves_inBounds_witness :
    (1 ≤ 4 ∧ 4 ≤ 65535 ∧ 1 ≤ 5 ∧ 5 ≤ 255 ∧ 1 ≤ 6 ∧ 6 ≤ 255 ∧
      inBounds 4 5 6 ⟨3, 4, 5⟩) ∧
      inBounds 4 5 6 (Address.wrapped_next ⟨3, 4, 5⟩ 4 5 6) :=
  ⟨by decide,
    wrapped_next_preserves_inBounds ⟨3, 4, 5⟩ 4 5 6 (by decide) (by decide)
      (by decide) (by decide) (by decide) (by decide) (by decide)⟩

/-! ## Groups, intervals and selections (`src/address.rs`) -/

/-- Strict lexicographic order on `Address` (page, then line, then column);
the Rust side derives `PartialOrd`/`Ord` from the field order. -/
def Address.lt (a b : Address) : Prop :=
  a.page < b.page ∨
    (a.page = b.page ∧
      (a.line < b.line ∨ (a.line = b.line ∧ a.column < b.column)))

/-- Non-strict lexicographic order on `Address`. -/
def Address.le (a b : Address) : Prop :=
  Address.lt a b ∨ a = b

instance (a b : Address) : Decidable (Address.lt a b) := by
  unfold Address.lt; infer_instance

instance (a b : Address) : Decidable (Address.le a b) := by
  unfold Address.le; infer_instance

/-- Modelled from the spec: the `Interval` type (imported by `src/address.rs`
from outside `src/`) is a closed or half-open interval over its endpoint
type; closed intervals contain both endpoints, `right_open` intervals contain
the lower endpoint and exclude the upper one. -/
inductive Interval (α : Type) where
  | closed (lo hi : α)
  | right_open (lo hi : α)
deriving DecidableEq

/-- Modelled from the spec: interval membership for the two interval forms. -/
def Interval.memA : Interval Address → Address → Prop
  | .closed lo hi, x => lo.le x ∧ x.le hi
  | .right_open lo hi, x => lo.le x ∧ x.lt hi

instance (i : Interval Address) (x : Address) : Decidable (i.memA x) := by
  cases i <;> (unfold Interval.memA; infer_instance)

/-- Embedding of `Selection` from `src/address.rs`: `Vec<Interval<Address>>`. -/
abbrev Selection : Type := List (Interval Address)

/-- An address belongs to a selection when some interval of it contains it. -/
def Selection.containsA (s : Selection) (x : Address) : Prop :=
  ∃ i ∈ s, i.memA x

instance (s : Selection) (x : Address) : Decidable (s.containsA x) := by
  unfold Selection.containsA; infer_instance

/-- Embedding of `Group` from `src/address.rs`. -/
inductive Group where
  | line (page : Nat) (line : Nat)
  | page (page : Nat)
  | all
deriving DecidableEq

/-- Embedding of `Group::base_address` from `src/address.rs`. -/
def Group.base_address : Group → Address
  | .line pg ln => ⟨pg, ln, 0⟩
  | .page pg => ⟨pg, 0, 0⟩
  | .all => ⟨0, 0, 0⟩

/-- Embedding of `Group::contains` from `src/address.rs`. -/
def Group.contains (g : Group) (address : Address) : Prop :=
  match g with
  | .line pg ln => address.page = pg ∧ address.line = ln
  | .page pg => address.page = pg
  | .all => True

instance (g : Group) (x : Address) : Decidable (g.contains x) := by
  cases g <;> (unfold Group.contains; infer_instance)

/-- Embedding of `impl Into<Selection> for Address` from `src/address.rs`:
`vec![Interval::closed(self.clone(), self)]`. -/
def Address.toSelection (a : Address) : Selection :=
  [Interval.closed a a]

/-- Embedding of `impl Into<Selection> for Group` from `src/address.rs`.  The Rust code
computes `line+1` on a `u8` and `page+1` on a `u16`; that addition wraps
(release mode semantics) at `line = 255` / `page = 65535`, embedded here by
the explicit `% 256` / `% 65536`. -/
def Group.toSelection : Group → Selection
  | .line pg ln =>
      [Interval.right_open ⟨pg, ln, 0⟩ ⟨pg, (ln + 1) % 256, 0⟩]
  | .page pg =>
      [Interval.right_open ⟨pg, 0, 0⟩ ⟨(pg + 1) % 65536, 0, 0⟩]
  | .all =>
      [Interval.closed ⟨0, 0, 0⟩ ⟨65535, 255, 255⟩]

/-- C8 counterexample: for the maximal line value `255`, the `u8` increment
`line + 1` wraps to `0`, so the selection for `Group::Line{page: 0, line: 255}`
is the empty interval `[(0,255,0), (0,0,0))`: it misses `(0,255,0)` even
though the group contains that address. -/
theorem group_line_max_selection_misses_member :
    Group.contains (.line 0 255) ⟨0, 255, 0⟩ ∧
      ¬ Selection.containsA (Group.toSelection (.line 0 255)) ⟨0, 255, 0⟩ := by
  decide

/-- C8 (amended): a single `Address` converts to the closed point interval
whose members are exactly that address; `Group::Line`/`Group::Page` convert
to the half-open interval `[base, next-base)` whose members are exactly the
group's members provided the line (resp. page) is below its maximal machine
value; `Group::All` converts to the full closed range, containing every
address of the `u16 × u8 × u8` space. -/
theorem toSelection_covers_group :
    (∀ a x : Address, Selection.containsA a.toSelection x ↔ x = a) ∧
    (∀ p l : Nat, ∀ x : Address, l < 255 →
      (Selection.containsA (Group.toSelection (.line p l)) x ↔
        Group.contains (.line p l) x)) ∧
    (∀ p : Nat, ∀ x : Address, p < 65535 →
      (Selection.containsA (Group.toSelection (.page p)) x ↔
        Group.contains (.page p) x)) ∧
    (∀ x : Address, x.page ≤ 65535 → x.line ≤ 255 → x.column ≤ 255 →
      Selection.containsA (Group.toSelection .all) x) := by
  refine ⟨?_, ?_, ?_, ?_⟩
  · intro a x
    obtain ⟨ap, al, ac⟩ := a
    obtain ⟨xp, xl, xc⟩ := x
    simp only [Selection.containsA, Address.toSelection, List.mem_singleton,
      exists_eq_left, Interval.memA, Address.le, Address.lt, Address.mk.injEq]
    omega
  · intro p l x hl
    obtain ⟨xp, xl, xc⟩ := x
    have e : (l + 1) % 256 = l + 1 := Nat.mod_eq_of_lt (by omega)
    simp only [Selection.containsA, Group.toSelection, e, List.mem_singleton,
      exists_eq_left, Interval.memA, Address.le, Address.lt, Group.contains,
      Address.mk.injEq]
    omega
  · intro p x hp
    obtain ⟨xp, xl, xc⟩ := x
    have e : (p + 1) % 65536 = p + 1 := Nat.mod_eq_of_lt (by omega)
    simp only [Selection.containsA, Group.toSelection, e, List.mem_singleton,
      exists_eq_left, Interval.memA, Address.le, Address.lt, Group.contains,
      Address.mk.injEq]
    omega
  · intro x h1 h2 h3
    obtain ⟨xp, xl, xc⟩ := x
    dsimp only at h1 h2 h3
    simp only [Selection.containsA, Group.toSelection, List.mem_singleton,
      exists_eq_left, Interval.memA, Address.le, Address.lt, Address.mk.injEq]
    omega

theorem toSelection_covers_group_witness :
    (Selection.containsA (Address.toSelection ⟨1, 2, 3⟩) ⟨1, 2, 3⟩ ↔
      (⟨1, 2, 3⟩ : Address) = ⟨1, 2, 3⟩) ∧
    (Selection.containsA (Group.toSelection (.line 4 5)) ⟨4, 5, 200⟩ ↔
      Group.contains (.line 4 5) ⟨4, 5, 200⟩) ∧
    (Selection.containsA (Group.toSelection (.page 7)) ⟨7, 9, 9⟩ ↔
      Group.contains (.page 7) ⟨7, 9, 9⟩) ∧
    Selection.containsA (Group.toSelection .all) ⟨65535, 255, 255⟩ :=
  ⟨toSelection_covers_group.1 ⟨1, 2, 3⟩ ⟨1, 2, 3⟩,
    toSelection_covers_group.2.1 4 5 ⟨4, 5, 200⟩ (by decide),
    toSelection_covers_group.2.2.1 7 ⟨7, 9, 9⟩ (by decide),
    toSelection_covers_group.2.2.2 ⟨65535, 255, 255⟩ (by decide) (by decide)
      (by decide)⟩

/-! ## The data store and the `Undo` operation (`src/operation/undo.rs`)

The `Data` store itself lives outside `src/`; per the spec (§4.2) it owns at
most one cell per address, with `cell` a pure lookup, `create_cell` creating
a cell at a free address and `remove_cell` deleting an occupied one.  It is
embedded as a finite-support function `Address → Option Expression`.  The
`Undo` operation's `record` and `apply` are translated from
`src/operation/undo.rs`; the `HashMap` of saved expressions is embedded as a
key-unique association list, and the Rust `panic!("null entry in Undo
operation")` is embedded as `Option.none`. -/

/-- Embedding of `Mixer` capability (spec §4.3): the shipped mixer is `Ramp(f32)` from
`src/src/palette/operation/ramp.rs`; its `f32` interpolation parameter is
embedded as an exact rational. -/
inductive Mixer where
  | ramp (amount : ℚ)
deriving DecidableEq

/-- The value stored in a cell (spec §3, `ColorElement`/`Expression`): either
a terminal RGB color, or a mixed element holding a mixer and an ordered list
of source-cell handles; per spec §9 a source handle is embedded as the
address key of the referenced cell. -/
inductive Expression where
  | color (r g b : Nat)
  | mixed (mixer : Mixer) (sources : List Address)
deriving DecidableEq

/-- Modelled from the spec: the data store (spec §4.2, outside `src/`),
embedded as the map from addresses to the optional cell contents. -/
abbrev Data : Type := Address → Option Expression

/-- Embedding of `OperationInfo` from `src/operation/undo.rs` (name and optional details
of the operation being undone). -/
structure OperationInfo where
  name : String
  details : Option String
deriving DecidableEq

/-- Lookup in the saved-expression association list (the embedding of
`HashMap::get`). -/
def savedLookup : List (Address × Option Expression) → Address →
    Option (Option Expression)
  | [], _ => none
  | (b, v) :: rest, a => if a = b then some v else savedLookup rest a

/-- Insertion in the saved-expression association list (the embedding of
`HashMap::insert`: replaces any existing binding of the key). -/
def savedInsert (l : List (Address × Option Expression)) (address : Address)
    (element : Option Expression) : List (Address × Option Expression) :=
  (address, element) :: l.filter (fun p => decide (p.1 ≠ address))

/-- The `Undo` operation from `src/operation/undo.rs`: the operation info of
the operation being undone, and the saved per-address prior expressions
(`none` = the address was originally empty, so undoing must delete it). -/
structure Undo where
  undoing : OperationInfo
  saved : List (Address × Option Expression)
deriving DecidableEq

/-- Embedding of `Undo::new` from `src/operation/undo.rs`. -/
def Undo.new : Undo :=
  { undoing := { name := "Undo", details := none }, saved := [] }

/-- Embedding of `Undo::record` from `src/operation/undo.rs`:
`if self.saved.get(&address).map_or(true, |e| !e.is_none()) {
self.saved.insert(address, element); }` — a recorded `None` entry is never
overwritten. -/
def Undo.record (u : Undo) (address : Address) (element : Option Expression) :
    Undo :=
  if (savedLookup u.saved address).all (fun e => !e.isNone) then
    { u with saved := savedInsert u.saved address element }
  else u

/-- One iteration of the loop in `Undo::apply` from `src/operation/undo.rs`:
the four cases on `(item.is_some(), data.cell(address).is_some())`.  Cell
mutation through the handle (`mem::replace`), `create_cell().unwrap()`
followed by `mem::replace`, and `remove_cell` are embedded by their net
effect on the store map.  The final `panic!("null entry in Undo operation")`
is embedded as `none`. -/
def applyStep (d : Data) (redo : Undo) (address : Address)
    (item : Option Expression) : Option (Data × Undo) :=
  match item, d address with
  | some elem, some cur =>
      some (Function.update d address (some elem), redo.record address (some cur))
  | some elem, none =>
      some (Function.update d address (some elem), redo.record address none)
  | none, some cur =>
      some (Function.update d address none, redo.record address (some cur))
  | none, none => none

/-- The loop of `Undo::apply`: replay every saved entry against the store,
accumulating the redo operation. -/
def applyLoop : List (Address × Option Expression) → Data → Undo →
    Option (Data × Undo)
  | [], d, redo => some (d, redo)
  | (address, item) :: rest, d, redo =>
    match applyStep d redo address item with
    | some (d', redo') => applyLoop rest d' redo'
    | none => none

/-- Embedding of `Undo::apply` from `src/operation/undo.rs`.  The Rust method takes
`&mut self` and first drains `self.saved` via `mem::replace`; the embedding
returns the drained operation (first component) alongside the new store and
the redo operation boxed into the returned `HistoryEntry`.  `none` embeds the
`panic!` on a null entry. -/
def Undo.apply (u : Undo) (d : Data) : Option (Undo × Data × Undo) :=
  match applyLoop u.saved d Undo.new with
  | some (d', redo) => some ({ u with saved := [] }, d', redo)
  | none => none

/-- C4: a saved `None` entry is final: any later `record` at that address is
ignored, and in particular an operation that creates an address (recording
`None`) and then modifies it within the same apply pass leaves the `None`
entry in place, so the eventual undo deletes the cell. -/
theorem record_first_none_wins (u : Undo) (a : Address) :
    (∀ e, savedLookup u.saved a = some none → u.record a e = u) ∧
    (∀ x, savedLookup u.saved a = none →
      savedLookup ((u.record a none).record a (some x)).saved a = some none) := by
  constructor
  · intro e h
    unfold Undo.record
    rw [h]
    simp
  · intro x h
    have e1 : savedLookup (savedInsert u.saved a none) a = some none := by
      simp [savedInsert, savedLookup]
    have s1 : u.record a none = { u with saved := savedInsert u.saved a none } := by
      unfold Undo.record
      rw [h]
      simp
    rw [s1]
    have s2 : (Undo.mk u.undoing (savedInsert u.saved a none)).record a (some x) =
        Undo.mk u.undoing (savedInsert u.saved a none) := by
      unfold Undo.record
      simp only [e1]
      simp
    rw [s2]
    exact e1

theorem record_first_none_wins_witness :
    (savedLookup (Undo.mk ⟨"Undo", none⟩ [(⟨0, 0, 0⟩, none)]).saved
        ⟨0, 0, 0⟩ = some none ∧
      (Undo.mk ⟨"Undo", none⟩ [(⟨0, 0, 0⟩, none)]).record ⟨0, 0, 0⟩
          (some (.color 1 2 3)) =
        Undo.mk ⟨"Undo", none⟩ [(⟨0, 0, 0⟩, none)]) ∧
    (savedLookup (Undo.new).saved ⟨0, 0, 0⟩ = none ∧
      savedLookup (((Undo.new).record ⟨0, 0, 0⟩ none).record ⟨0, 0, 0⟩
          (some (.color 1 2 3))).saved ⟨0, 0, 0⟩ = some none) :=
  ⟨⟨by decide,
    (record_first_none_wins (Undo.mk ⟨"Undo", none⟩ [(⟨0, 0, 0⟩, none)])
      ⟨0, 0, 0⟩).1 (some (.color 1 2 3)) (by decide)⟩,
   ⟨by decide,
    (record_first_none_wins Undo.new ⟨0, 0, 0⟩).2 (.color 1 2 3) (by decide)⟩⟩

theorem savedLookup_nil (a : Address) : savedLookup [] a = none := rfl

theorem savedLookup_cons (k : Address) (v : Option Expression)
    (rest : List (Address × Option Expression)) (a : Address) :
    savedLookup ((k, v) :: rest) a =
      if a = k then some v else savedLookup rest a := rfl

theorem savedLookup_filter_ne (l : List (Address × Option Expression))
    (a b : Address) (hab : a ≠ b) :
    savedLookup (l.filter (fun p => decide (p.1 ≠ b))) a = savedLookup l a := by
  induction l with
  | nil => rfl
  | cons hd tl ih =>
    obtain ⟨k, v⟩ := hd
    rw [List.filter_cons]
    by_cases hk : k = b
    · subst hk
      rw [if_neg (by simp), ih, savedLookup_cons, if_neg hab]
    · rw [if_pos (by simpa using hk), savedLookup_cons, savedLookup_cons, ih]

theorem savedLookup_insert (l : List (Address × Option Expression))
    (b : Address) (v : Option Expression) (a : Address) :
    savedLookup (savedInsert l b v) a =
      if a = b then some v else savedLookup l a := by
  unfold savedInsert
  by_cases hab : a = b
  · subst hab
    simp [savedLookup]
  · simp only [savedLookup, if_neg hab]
    exact savedLookup_filter_ne l a b hab

theorem record_lookup_ne (u : Undo) (b : Address) (v : Option Expression)
    (a : Address) (hab : a ≠ b) :
    savedLookup (u.record b v).saved a = savedLookup u.saved a := by
  unfold Undo.record
  split
  · show savedLookup (savedInsert u.saved b v) a = savedLookup u.saved a
    rw [savedLookup_insert, if_neg hab]
  · rfl

theorem record_lookup_self_of_fresh (u : Undo) (b : Address)
    (v : Option Expression) (h : savedLookup u.saved b = none) :
    savedLookup (u.record b v).saved b = some v := by
  unfold Undo.record
  rw [h]
  simp only [Option.all_none, if_true]
  rw [savedLookup_insert, if_pos rfl]

theorem record_undoing (u : Undo) (b : Address) (v : Option Expression) :
    (u.record b v).undoing = u.undoing := by
  unfold Undo.record
  split <;> rfl

theorem record_nodup (u : Undo) (b : Address) (v : Option Expression)
    (h : (u.saved.map Prod.fst).Nodup) :
    ((u.record b v).saved.map Prod.fst).Nodup := by
  unfold Undo.record
  split
  · show ((savedInsert u.saved b v).map Prod.fst).Nodup
    unfold savedInsert
    simp only [List.map_cons, List.nodup_cons]
    constructor
    · intro hmem
      obtain ⟨p, hp, hpb⟩ := List.mem_map.mp hmem
      have := (List.mem_filter.mp hp).2
      simp only [decide_eq_true_eq] at this
      exact this hpb
    · exact h.sublist (List.Sublist.map Prod.fst (List.filter_sublist _))
  · exact h

theorem savedLookup_eq_none_of_not_mem (l : List (Address × Option Expression))
    (a : Address) (h : a ∉ l.map Prod.fst) : savedLookup l a = none := by
  induction l with
  | nil => rfl
  | cons hd tl ih =>
    obtain ⟨k, v⟩ := hd
    simp only [List.map_cons, List.mem_cons, not_or] at h
    simp only [savedLookup, if_neg h.1]
    exact ih h.2

theorem mem_of_savedLookup_eq_some (l : List (Address × Option Expression))
    (a : Address) (v : Option Expression) (h : savedLookup l a = some v) :
    a ∈ l.map Prod.fst := by
  induction l with
  | nil => exact Option.noConfusion h
  | cons hd tl ih =>
    obtain ⟨k, w⟩ := hd
    simp only [savedLookup] at h
    simp only [List.map_cons, List.mem_cons]
    by_cases hk : a = k
    · exact Or.inl hk
    · rw [if_neg hk] at h
      exact Or.inr (ih h)

/-- Full characterisation of the replay loop of `Undo::apply`: provided the
saved keys are distinct, no saved `None` entry meets an absent cell, and the
redo accumulator holds no entry for a pending key, the loop succeeds; the
resulting store holds exactly the saved expressions (and is untouched
elsewhere), and the resulting redo records exactly the displaced pre-loop
contents of the touched addresses. -/
theorem applyLoop_spec :
    ∀ (l : List (Address × Option Expression)) (d : Data) (redo : Undo),
    (l.map Prod.fst).Nodup →
    (∀ a, savedLookup l a = some none → (d a).isSome) →
    (∀ a, a ∈ l.map Prod.fst → savedLookup redo.saved a = none) →
    ∃ d' redo', applyLoop l d redo = some (d', redo') ∧
      (∀ a, d' a = (match savedLookup l a with
        | some v => v
        | none => d a)) ∧
      (∀ a, savedLookup redo'.saved a = (match savedLookup l a with
        | some _ => some (d a)
        | none => savedLookup redo.saved a)) ∧
      redo'.undoing = redo.undoing ∧
      ((redo.saved.map Prod.fst).Nodup → (redo'.saved.map Prod.fst).Nodup) := by
  intro l
  induction l with
  | nil =>
    intro d redo _ _ _
    exact ⟨d, redo, rfl, fun a => rfl, fun a => rfl, rfl, fun h => h⟩
  | cons hd rest ih =>
    obtain ⟨a₀, item⟩ := hd
    intro d redo hnd hpanic hfresh
    have hmem₀ : a₀ ∈ ((a₀, item) :: rest).map Prod.fst := by
      simp
    have hnd' := hnd
    simp only [List.map_cons, List.nodup_cons] at hnd'
    obtain ⟨ha₀, hndrest⟩ := hnd'
    have hlook₀ : savedLookup ((a₀, item) :: rest) a₀ = some item := by
      simp [savedLookup]
    -- the step succeeds and has a uniform description
    have hstep : applyStep d redo a₀ item =
        some (Function.update d a₀ item, redo.record a₀ (d a₀)) := by
      unfold applyStep
      match hitem : item, hcell : d a₀ with
      | some elem, some cur => rfl
      | some elem, none => rfl
      | none, some cur => rfl
      | none, none =>
        exfalso
        have hx := hpanic a₀ hlook₀
        rw [hcell] at hx
        exact Bool.noConfusion hx
    have hloop : applyLoop ((a₀, item) :: rest) d redo =
        applyLoop rest (Function.update d a₀ item) (redo.record a₀ (d a₀)) := by
      show (match applyStep d redo a₀ item with
        | some (d', redo') => applyLoop rest d' redo'
        | none => none) =
          applyLoop rest (Function.update d a₀ item) (redo.record a₀ (d a₀))
      rw [hstep]
    set d₁ := Function.update d a₀ item with hd₁
    set redo₁ := redo.record a₀ (d a₀) with hredo₁
    have hrest_panic : ∀ a, savedLookup rest a = some none → (d₁ a).isSome := by
      intro a ha
      have hane : a ≠ a₀ := by
        intro he
        subst he
        rw [savedLookup_eq_none_of_not_mem rest a ha₀] at ha
        exact Option.noConfusion ha
      rw [hd₁, Function.update_noteq hane]
      apply hpanic a
      simp only [savedLookup, if_neg hane]
      exact ha
    have hrest_fresh : ∀ a, a ∈ rest.map Prod.fst →
        savedLookup redo₁.saved a = none := by
      intro a ha
      have hane : a ≠ a₀ := fun he => ha₀ (he ▸ ha)
      rw [hredo₁, record_lookup_ne redo a₀ (d a₀) a hane]
      exact hfresh a (by simp [ha])
    obtain ⟨d', redo', hml, hmstore, hmredo, hmund, hmnodup⟩ :=
      ih d₁ redo₁ hndrest hrest_panic hrest_fresh
    refine ⟨d', redo', by rw [hloop]; exact hml, ?_, ?_, ?_, ?_⟩
    · intro a
      by_cases hae : a = a₀
      · subst hae
        rw [hlook₀]
        rw [hmstore a, savedLookup_eq_none_of_not_mem rest a ha₀]
        rw [hd₁, Function.update_same]
      · have : savedLookup ((a₀, item) :: rest) a = savedLookup rest a := by
          simp [savedLookup, if_neg hae]
        rw [this, hmstore a]
        cases hva : savedLookup rest a with
        | some v => rfl
        | none => rw [hd₁, Function.update_noteq hae]
    · intro a
      by_cases hae : a = a₀
      · subst hae
        rw [hlook₀]
        rw [hmredo a, savedLookup_eq_none_of_not_mem rest a ha₀]
        rw [hredo₁, record_lookup_self_of_fresh redo a (d a) (hfresh a hmem₀)]
      · have hcons : savedLookup ((a₀, item) :: rest) a = savedLookup rest a := by
          simp [savedLookup, if_neg hae]
        rw [hcons, hmredo a]
        cases hva : savedLookup rest a with
        | some v =>
          rw [hd₁, Function.update_noteq hae]
        | none =>
          rw [hredo₁, record_lookup_ne redo a₀ (d a₀) a hae]
    · rw [hmund, hredo₁, record_undoing]
    · intro h
      exact hmnodup (hredo₁ ▸ record_nodup redo a₀ (d a₀) h)

/-- The undo operation `u` correctly records the pre-state of an application:
`S` is the store before the operation ran, `S'` the store after, and `u` the
undo the operation accumulated through `Undo::record`.  The three conditions
say (1) every saved entry holds the pre-operation contents of its address,
(2) unsaved addresses were not touched, and (3) no address is simultaneously
recorded as "was empty" and left empty — the construction invariant whose
violation is the `panic!` branch of `Undo::apply`. -/
def RecordsFor (S S' : Data) (u : Undo) : Prop :=
  (∀ a v, savedLookup u.saved a = some v → v = S a) ∧
  (∀ a, savedLookup u.saved a = none → S' a = S a) ∧
  (∀ a, savedLookup u.saved a = some none → (S' a).isSome)

/-- C1: applying the undo produced by a successful operation application
(post-store `S'`, recording discipline `RecordsFor S S' u`, distinct saved
keys) succeeds and restores a store pointwise equal to the pre-store `S`:
same occupied addresses, same stored (hence same resolved) contents. -/
theorem undo_restores_prior_store (S S' : Data) (u : Undo)
    (hrec : RecordsFor S S' u) (hnd : (u.saved.map Prod.fst).Nodup) :
    ∃ res d' redo, u.apply S' = some (res, d', redo) ∧ ∀ a, d' a = S a := by
  obtain ⟨h1, h2, h3⟩ := hrec
  obtain ⟨d', redo', hloop, hstore, _, _, _⟩ :=
    applyLoop_spec u.saved S' Undo.new hnd (fun a ha => h3 a ha)
      (fun a _ => rfl)
  refine ⟨{ u with saved := [] }, d', redo', ?_, ?_⟩
  · unfold Undo.apply
    rw [hloop]
  · intro a
    rw [hstore a]
    cases hv : savedLookup u.saved a with
    | none => exact h2 a hv
    | some v => exact h1 a v hv

theorem undo_restores_prior_store_witness :
    (RecordsFor (fun _ => none)
        (Function.update (fun _ => none) ⟨0, 0, 0⟩ (some (.color 1 2 3)))
        (Undo.mk ⟨"Insert Color", none⟩ [(⟨0, 0, 0⟩, none)]) ∧
      (((Undo.mk ⟨"Insert Color", none⟩
          [(⟨0, 0, 0⟩, none)]).saved.map Prod.fst).Nodup)) ∧
    ∃ res d' redo,
      (Undo.mk ⟨"Insert Color", none⟩ [(⟨0, 0, 0⟩, none)]).apply
          (Function.update (fun _ => none) ⟨0, 0, 0⟩ (some (.color 1 2 3))) =
        some (res, d', redo) ∧
      ∀ a, d' a = (fun _ => none : Data) a := by
  have hrec : RecordsFor (fun _ => none)
      (Function.update (fun _ => none) ⟨0, 0, 0⟩ (some (.color 1 2 3)))
      (Undo.mk ⟨"Insert Color", none⟩ [(⟨0, 0, 0⟩, none)]) := by
    refine ⟨?_, ?_, ?_⟩
    · intro a v h
      rw [savedLookup_cons] at h
      split at h
      · exact (Option.some_inj.mp h).symm
      · exact Option.noConfusion h
    · intro a h
      rw [savedLookup_cons] at h
      split at h
      · exact Option.noConfusion h
      · rename_i hne
        rw [Function.update_noteq hne]
    · intro a h
      rw [savedLookup_cons] at h
      split at h
      · rename_i he
        subst he
        rw [Function.update_same]
        rfl
      · exact Option.noConfusion h
  have hnd : (((Undo.mk ⟨"Insert Color", none⟩
      [((⟨0, 0, 0⟩ : Address), (none : Option Expression))]).saved.map
        Prod.fst).Nodup) := by
    simp
  exact ⟨⟨hrec, hnd⟩, undo_restores_prior_store _ _ _ hrec hnd⟩

/-- C2: after undoing (which restores the pre-store), applying the redo the
undo returned restores the post-operation store pointwise. -/
theorem undo_redo_restores_post_store (S S' : Data) (u : Undo)
    (hrec : RecordsFor S S' u) (hnd : (u.saved.map Prod.fst).Nodup) :
    ∃ res d₂ redo res₂ d₃ redo₂,
      u.apply S' = some (res, d₂, redo) ∧
      redo.apply d₂ = some (res₂, d₃, redo₂) ∧
      ∀ a, d₃ a = S' a := by
  obtain ⟨h1, h2, h3⟩ := hrec
  obtain ⟨d₂, redo', hloop, hstore, hredo, _, hnodup⟩ :=
    applyLoop_spec u.saved S' Undo.new hnd (fun a ha => h3 a ha)
      (fun a _ => rfl)
  have hnd₂ : (redo'.saved.map Prod.fst).Nodup := hnodup (by simp [Undo.new])
  have hpanic₂ : ∀ a, savedLookup redo'.saved a = some none → (d₂ a).isSome := by
    intro a ha
    rw [hredo a] at ha
    cases hv : savedLookup u.saved a with
    | none =>
      rw [hv] at ha
      exact Option.noConfusion ha
    | some v =>
      rw [hv] at ha
      have hS' : S' a = none := Option.some_inj.mp ha
      cases hw : v with
      | none =>
        exfalso
        have := h3 a (hw ▸ hv)
        rw [hS'] at this
        exact Bool.noConfusion this
      | some e =>
        rw [hstore a, hv, hw]
        rfl
  obtain ⟨d₃, redo₂', hloop₂, hstore₂, _, _, _⟩ :=
    applyLoop_spec redo'.saved d₂ Undo.new hnd₂ hpanic₂ (fun a _ => rfl)
  refine ⟨{ u with saved := [] }, d₂, redo', { redo' with saved := [] }, d₃,
    redo₂', ?_, ?_, ?_⟩
  · unfold Undo.apply
    rw [hloop]
  · unfold Undo.apply
    rw [hloop₂]
  · intro a
    rw [hstore₂ a]
    have hx := hredo a
    cases hv : savedLookup redo'.saved a with
    | some w =>
      rw [hv] at hx
      cases hu : savedLookup u.saved a with
      | none =>
        simp only [hu] at hx
        exact Option.noConfusion hx
      | some v =>
        simp only [hu] at hx
        exact Option.some_inj.mp hx
    | none =>
      rw [hv] at hx
      cases hu : savedLookup u.saved a with
      | some v =>
        simp only [hu] at hx
        exact Option.noConfusion hx.symm
      | none =>
        rw [hstore a, hu]

theorem undo_redo_restores_post_store_witness :
    (RecordsFor (fun _ => some (.color 9 9 9))
        (Function.update (fun _ => some (.color 9 9 9)) ⟨0, 0, 1⟩
          (some (.color 1 2 3)))
        (Undo.mk ⟨"Insert Color", none⟩
          [(⟨0, 0, 1⟩, some (.color 9 9 9))]) ∧
      (((Undo.mk ⟨"Insert Color", none⟩
          [(⟨0, 0, 1⟩, some (.color 9 9 9))]).saved.map Prod.fst).Nodup)) ∧
    ∃ res d₂ redo res₂ d₃ redo₂,
      (Undo.mk ⟨"Insert Color", none⟩
          [(⟨0, 0, 1⟩, some (.color 9 9 9))]).apply
          (Function.update (fun _ => some (.color 9 9 9)) ⟨0, 0, 1⟩
            (some (.color 1 2 3))) =
        some (res, d₂, redo) ∧
      redo.apply d₂ = some (res₂, d₃, redo₂) ∧
      ∀ a, d₃ a =
        Function.update (fun _ => some (.color 9 9 9)) ⟨0, 0, 1⟩
          (some (.color 1 2 3)) a := by
  have hrec : RecordsFor (fun _ => some (.color 9 9 9))
      (Function.update (fun _ => some (.color 9 9 9)) ⟨0, 0, 1⟩
        (some (.color 1 2 3)))
      (Undo.mk ⟨"Insert Color", none⟩
        [(⟨0, 0, 1⟩, some (.color 9 9 9))]) := by
    refine ⟨?_, ?_, ?_⟩
    · intro a v h
      rw [savedLookup_cons] at h
      split at h
      · exact (Option.some_inj.mp h).symm
      · exact Option.noConfusion h
    · intro a h
      rw [savedLookup_cons] at h
      split at h
      · exact Option.noConfusion h
      · rename_i hne
        rw [Function.update_noteq hne]
    · intro a h
      rw [savedLookup_cons] at h
      split at h
      · exact Option.noConfusion (Option.some_inj.mp h)
      · exact Option.noConfusion h
  have hnd : (((Undo.mk ⟨"Insert Color", none⟩
      [((⟨0, 0, 1⟩ : Address),
        (some (.color 9 9 9) : Option Expression))]).saved.map
        Prod.fst).Nodup) := by
    simp
  exact ⟨⟨hrec, hnd⟩, undo_redo_restores_post_store _ _ _ hrec hnd⟩

/-- C3: applying an `Undo` handles a saved `(address, entry)` pair by exactly
four cases — overwrite an occupied cell (recording the displaced value as
redo), recreate a missing cell (recording `None` as redo), remove an occupied
cell whose saved entry is `None` (recording the removed value as redo), and,
for a saved `None` meeting an absent cell, the `panic!` (embedded as `none`,
distinct from every `Err`-style return). -/
theorem undo_apply_four_cases (info : OperationInfo) (d : Data) (a : Address) :
    (∀ e cur, d a = some cur →
      (Undo.mk info [(a, some e)]).apply d =
        some (Undo.mk info [], Function.update d a (some e),
          Undo.mk ⟨"Undo", none⟩ [(a, some cur)])) ∧
    (∀ e, d a = none →
      (Undo.mk info [(a, some e)]).apply d =
        some (Undo.mk info [], Function.update d a (some e),
          Undo.mk ⟨"Undo", none⟩ [(a, none)])) ∧
    (∀ cur, d a = some cur →
      (Undo.mk info [(a, none)]).apply d =
        some (Undo.mk info [], Function.update d a none,
          Undo.mk ⟨"Undo", none⟩ [(a, some cur)])) ∧
    (d a = none → (Undo.mk info [(a, none)]).apply d = none) := by
  refine ⟨?_, ?_, ?_, ?_⟩
  · intro e cur h
    unfold Undo.apply applyLoop applyStep
    rw [h]
    rfl
  · intro e h
    unfold Undo.apply applyLoop applyStep
    rw [h]
    rfl
  · intro cur h
    unfold Undo.apply applyLoop applyStep
    rw [h]
    rfl
  · intro h
    unfold Undo.apply applyLoop applyStep
    rw [h]

theorem undo_apply_four_cases_witness :
    ((fun _ => some (.color 7 7 7) : Data) ⟨0, 0, 0⟩ = some (.color 7 7 7) ∧
      (Undo.mk ⟨"op", none⟩ [(⟨0, 0, 0⟩, some (.color 1 1 1))]).apply
          (fun _ => some (.color 7 7 7)) =
        some (Undo.mk ⟨"op", none⟩ [],
          Function.update (fun _ => some (.color 7 7 7)) ⟨0, 0, 0⟩
            (some (.color 1 1 1)),
          Undo.mk ⟨"Undo", none⟩ [(⟨0, 0, 0⟩, some (.color 7 7 7))])) ∧
    ((fun _ => none : Data) ⟨0, 0, 0⟩ = none ∧
      (Undo.mk ⟨"op", none⟩ [(⟨0, 0, 0⟩, some (.color 1 1 1))]).apply
          (fun _ => none) =
        some (Undo.mk ⟨"op", none⟩ [],
          Function.update (fun _ => none) ⟨0, 0, 0⟩ (some (.color 1 1 1)),
          Undo.mk ⟨"Undo", none⟩ [(⟨0, 0, 0⟩, none)])) ∧
    ((fun _ => some (.color 7 7 7) : Data) ⟨0, 0, 0⟩ = some (.color 7 7 7) ∧
      (Undo.mk ⟨"op", none⟩ [(⟨0, 0, 0⟩, none)]).apply
          (fun _ => some (.color 7 7 7)) =
        some (Undo.mk ⟨"op", none⟩ [],
          Function.update (fun _ => some (.color 7 7 7)) ⟨0, 0, 0⟩ none,
          Undo.mk ⟨"Undo", none⟩ [(⟨0, 0, 0⟩, some (.color 7 7 7))])) ∧
    ((fun _ => none : Data) ⟨0, 0, 0⟩ = none ∧
      (Undo.mk ⟨"op", none⟩ [(⟨0, 0, 0⟩, none)]).apply (fun _ => none) = none) :=
  ⟨⟨rfl, (undo_apply_four_cases ⟨"op", none⟩ (fun _ => some (.color 7 7 7))
      ⟨0, 0, 0⟩).1 (.color 1 1 1) (.color 7 7 7) rfl⟩,
   ⟨rfl, (undo_apply_four_cases ⟨"op", none⟩ (fun _ => none) ⟨0, 0, 0⟩).2.1
      (.color 1 1 1) rfl⟩,
   ⟨rfl, (undo_apply_four_cases ⟨"op", none⟩ (fun _ => some (.color 7 7 7))
      ⟨0, 0, 0⟩).2.2.1 (.color 7 7 7) rfl⟩,
   ⟨rfl, (undo_apply_four_cases ⟨"op", none⟩ (fun _ => none)
      ⟨0, 0, 0⟩).2.2.2 rfl⟩⟩

/-- C10: `Undo::apply` drains the saved map before replaying it (the embedded
first component, the post-`&mut self` residue, has an empty saved list), so a
second application of the drained value changes no cell — the store comes
back pointwise identical — and its redo has an empty saved map. -/
theorem undo_apply_single_use (u : Undo) (d : Data) (res : Undo) (d' : Data)
    (redo : Undo) (h : u.apply d = some (res, d', redo)) :
    res.saved = [] ∧ res.apply d' = some (res, d', Undo.new) := by
  unfold Undo.apply at h
  cases hl : applyLoop u.saved d Undo.new with
  | none =>
    rw [hl] at h
    exact Option.noConfusion h
  | some p =>
    obtain ⟨d₀, r₀⟩ := p
    rw [hl] at h
    simp only [Option.some.injEq, Prod.mk.injEq] at h
    obtain ⟨hres, hd, hr⟩ := h
    subst hres hd
    exact ⟨rfl, rfl⟩

theorem undo_apply_single_use_witness :
    ((Undo.mk ⟨"op", none⟩ [(⟨0, 0, 0⟩, none)]).apply
        (fun _ => some (.color 5 5 5)) =
      some (Undo.mk ⟨"op", none⟩ [],
        Function.update (fun _ => some (.color 5 5 5)) ⟨0, 0, 0⟩ none,
        Undo.mk ⟨"Undo", none⟩ [(⟨0, 0, 0⟩, some (.color 5 5 5))])) ∧
    ((Undo.mk ⟨"op", none⟩ []).saved = [] ∧
      (Undo.mk ⟨"op", none⟩ []).apply
          (Function.update (fun _ => some (.color 5 5 5)) ⟨0, 0, 0⟩ none) =
        some (Undo.mk ⟨"op", none⟩ [],
          Function.update (fun _ => some (.color 5 5 5)) ⟨0, 0, 0⟩ none,
          Undo.new)) :=
  ⟨rfl,
    undo_apply_single_use (Undo.mk ⟨"op", none⟩ [(⟨0, 0, 0⟩, none)])
      (fun _ => some (.color 5 5 5)) (Undo.mk ⟨"op", none⟩ [])
      (Function.update (fun _ => some (.color 5 5 5)) ⟨0, 0, 0⟩ none)
      (Undo.mk ⟨"Undo", none⟩ [(⟨0, 0, 0⟩, some (.color 5 5 5))]) rfl⟩

/-! ## `InsertRamp` (`src/src/palette/operation/ramp.rs`)

`InsertRamp::apply` is translated from the source; the store services it
calls (`first_free_address_after`, `find_targets`) and the operation helpers
`get_source`/`set_target` live outside `src/` and are modelled from the spec
(§4.2, §4.4).  The `f32` interpolation arithmetic is embedded as exact
rationals. -/

/-- Modelled from the spec: the palette error kinds (spec §7). -/
inductive Error where
  | slotOccupied
  | slotEmpty
  | insufficientSpace
  | paletteFull
  | missingSource
  | invalidState
deriving DecidableEq

/-- Modelled from the spec: the successor in the whole `u16 × u8 × u8`
address space, used by the store's free-address and target searches
(spec §4.2, "wrapping through the whole address space"): `wrapped_next`
with the full-space bounds. -/
def Address.full_next (a : Address) : Address :=
  a.wrapped_next 65536 256 256

/-- Fuel-indexed search loop of `first_free_address_after`. -/
def firstFreeAux (d : Data) : Nat → Address → Except Error Address
  | 0, _ => .error .paletteFull
  | fuel + 1, a =>
    match d a with
    | none => .ok a
    | some _ => firstFreeAux d fuel a.full_next

/-- Modelled from the spec: `first_free_address_after` (spec §4.2, outside
`src/`): the next unoccupied address at or after `start`, wrapping through
the whole address space once before failing with `PaletteFull`. -/
def first_free_address_after (d : Data) (start : Address) :
    Except Error Address :=
  firstFreeAux d (65536 * 256 * 256) start

/-- Fuel-indexed allocation loop of `find_targets`. -/
def findTargetsAux (d : Data) (overwrite : Bool) (exclude : List Address) :
    Nat → Nat → Address → Except Error (List Address)
  | _, 0, _ => .ok []
  | 0, _ + 1, _ => .error .insufficientSpace
  | fuel + 1, count + 1, a =>
    if a ∉ exclude ∧ (overwrite ∨ d a = none) then
      match findTargetsAux d overwrite exclude fuel count a.full_next with
      | .ok rest => .ok (a :: rest)
      | .error e => .error e
    else
      findTargetsAux d overwrite exclude fuel (count + 1) a.full_next

/-- Modelled from the spec: `find_targets` (spec §4.2, outside `src/`):
allocate `count` addresses starting at `start`, always skipping excluded
addresses, skipping occupied ones unless `overwrite` is set, and failing
with `InsufficientSpace` once the whole space has been traversed. -/
def find_targets (d : Data) (count : Nat) (start : Address) (overwrite : Bool)
    (exclude : List Address) : Except Error (List Address) :=
  findTargetsAux d overwrite exclude (65536 * 256 * 256) count start

/-- Modelled from the spec: `get_source` (spec §4.4, outside `src/`): resolve
the source cell at the address, returning its handle (embedded as the address
key, spec §9) and the possibly-extended store; if the cell is missing and
`make` is set, create a placeholder `Color` cell there and record the
creation (`None` prior value) in the undo, otherwise fail with the
missing-source error. -/
def get_source (d : Data) (address : Address) (make : Bool) (undo : Undo) :
    Except Error (Address × Data × Undo) :=
  match d address with
  | some _ => .ok (address, d, undo)
  | none =>
    if make then
      .ok (address, Function.update d address (some (.color 0 0 0)),
        undo.record address none)
    else .error .missingSource

/-- Modelled from the spec: `set_target` (spec §4.4, outside `src/`): install
the element at the target address, creating the cell if absent, recording the
displaced contents (or the prior absence) in the undo. -/
def set_target (d : Data) (address : Address) (element : Expression)
    (undo : Undo) : Except Error (Data × Undo) :=
  match d address with
  | some cur =>
      .ok (Function.update d address (some element),
        undo.record address (some cur))
  | none =>
      .ok (Function.update d address (some element), undo.record address none)

/-- Embedding of `InsertRamp` from `src/src/palette/operation/ramp.rs`.  The `from`/`to`
fields are spelled `from_`/`to_` because `from` is a Lean keyword. -/
structure InsertRamp where
  location : Option Address
  from_ : Address
  to_ : Address
  count : Nat
  overwrite : Bool
  make_sources : Bool
deriving DecidableEq

/-- Embedding of `InsertRamp::new` from ramp.rs. -/
def InsertRamp.new (f t : Address) (count : Nat) : InsertRamp :=
  { location := none, from_ := f, to_ := t, count := count,
    overwrite := false, make_sources := false }

/-- Embedding of `InsertRamp::get_info` from ramp.rs (the `details` Debug dump elided). -/
def InsertRamp.get_info (_ : InsertRamp) : OperationInfo :=
  { name := "Insert Ramp", details := none }

/-- Embedding of `Undo::new_for` from `src/operation/undo.rs`, at the `InsertRamp`
instance of `PaletteOperation` used by ramp.rs. -/
def Undo.new_for (op : InsertRamp) : Undo :=
  { undoing := op.get_info, saved := [] }

/-- The starting-address computation of `InsertRamp::apply` (ramp.rs lines
153-158): the explicit location if set, else the first free address after
`Default::default()` = `(0,0,0)`. -/
def InsertRamp.starting_address (op : InsertRamp) (data : Data) :
    Except Error Address :=
  match op.location with
  | some address => .ok address
  | none => first_free_address_after data ⟨0, 0, 0⟩

/-- The target allocation of `InsertRamp::apply` (ramp.rs lines 160-166):
`find_targets` for `count` slots from the starting address, excluding the two
source addresses. -/
def InsertRamp.targets (op : InsertRamp) (data : Data) :
    Except Error (List Address) :=
  match op.starting_address data with
  | .ok s => find_targets data op.count s op.overwrite [op.from_, op.to_]
  | .error e => .error e

/-- The ramp-generation loop of `InsertRamp::apply` (ramp.rs lines 175-184):
for the `i`-th target, amount `am = (1.0 / (count + 1) as f32) * (i + 1) as
f32` (`f32` embedded as `ℚ`) and a `Mixed` element with mixer `Ramp(am)`
over `[src_from, src_to]`, installed via `set_target`. -/
def rampGen (count : Nat) (src_from src_to : Address) :
    List Address → Nat → Data → Undo → Except Error (Data × Undo)
  | [], _, d, undo => .ok (d, undo)
  | address :: rest, i, d, undo =>
    let am : ℚ := (1 / ((count : ℚ) + 1)) * ((i : ℚ) + 1)
    match set_target d address (.mixed (.ramp am) [src_from, src_to]) undo with
    | .ok (d', undo') => rampGen count src_from src_to rest (i + 1) d' undo'
    | .error e => .error e

/-- Embedding of `InsertRamp::apply` from ramp.rs: resolve targets, resolve or create the
two sources (accumulating into the undo created by `Undo::new_for`), then
generate the ramp elements. -/
def InsertRamp.apply (op : InsertRamp) (data : Data) :
    Except Error (Data × Undo) :=
  match op.targets data with
  | .error e => .error e
  | .ok targets =>
    match get_source data op.from_ op.make_sources (Undo.new_for op) with
    | .error e => .error e
    | .ok (src_from, data₁, undo₁) =>
      match get_source data₁ op.to_ op.make_sources undo₁ with
      | .error e => .error e
      | .ok (src_to, data₂, undo₂) =>
        rampGen op.count src_from src_to targets 0 data₂ undo₂

theorem findTargetsAux_length (d : Data) (ow : Bool) (excl : List Address) :
    ∀ fuel count a ts, findTargetsAux d ow excl fuel count a = .ok ts →
      ts.length = count := by
  intro fuel
  induction fuel with
  | zero =>
    intro count a ts h
    cases count with
    | zero =>
      have he : ([] : List Address) = ts := Except.ok.inj h
      rw [← he]
      rfl
    | succ n => exact Except.noConfusion h
  | succ f ih =>
    intro count a ts h
    cases count with
    | zero =>
      have he : ([] : List Address) = ts := Except.ok.inj h
      rw [← he]
      rfl
    | succ n =>
      simp only [findTargetsAux] at h
      split at h
      · cases hrec : findTargetsAux d ow excl f n a.full_next with
        | ok rest =>
          rw [hrec] at h
          have he : a :: rest = ts := Except.ok.inj h
          rw [← he]
          simp only [List.length_cons, ih n a.full_next rest hrec]
        | error e =>
          rw [hrec] at h
          exact Except.noConfusion h
      · exact ih (n + 1) a.full_next ts h

theorem set_target_data (d : Data) (a : Address) (e : Expression) (u : Undo) :
    ∃ u', set_target d a e u = .ok (Function.update d a (some e), u') := by
  unfold set_target
  cases d a with
  | some cur => exact ⟨u.record a (some cur), rfl⟩
  | none => exact ⟨u.record a none, rfl⟩

theorem get_source_addr (d : Data) (a : Address) (make : Bool) (u : Undo)
    (r : Address × Data × Undo) (h : get_source d a make u = .ok r) :
    r.1 = a := by
  unfold get_source at h
  cases hd : d a with
  | some e =>
    rw [hd] at h
    rw [← Except.ok.inj h]
  | none =>
    rw [hd] at h
    by_cases hm : make = true
    · rw [if_pos hm] at h
      rw [← Except.ok.inj h]
    · rw [if_neg hm] at h
      exact Except.noConfusion h

theorem rampGen_frame (count : Nat) (sf st : Address) :
    ∀ ts i d undo d' undo',
      rampGen count sf st ts i d undo = .ok (d', undo') →
      ∀ x, x ∉ ts → d' x = d x := by
  intro ts
  induction ts with
  | nil =>
    intro i d undo d' undo' h x _
    have he : (d, undo) = (d', undo') := Except.ok.inj h
    rw [← (Prod.mk.injEq _ _ _ _).mp he |>.1]
  | cons a rest ih =>
    intro i d undo d' undo' h x hx
    simp only [rampGen] at h
    obtain ⟨u', hst⟩ := set_target_data d a
      (.mixed (.ramp ((1 / ((count : ℚ) + 1)) * ((i : ℚ) + 1))) [sf, st]) undo
    rw [hst] at h
    have hxa : x ≠ a := fun he => hx (he ▸ List.mem_cons_self a rest)
    have hxrest : x ∉ rest := fun he => hx (List.mem_cons_of_mem a he)
    rw [ih (i + 1) _ u' d' undo' h x hxrest, Function.update_noteq hxa]

theorem rampGen_targets (count : Nat) (sf st : Address) :
    ∀ ts i d undo d' undo', ts.Nodup →
      rampGen count sf st ts i d undo = .ok (d', undo') →
      ∀ j (hj : j < ts.length),
        d' (ts.get ⟨j, hj⟩) =
          some (.mixed (.ramp ((1 / ((count : ℚ) + 1)) *
            (((i : ℚ) + (j : ℚ)) + 1))) [sf, st]) := by
  intro ts
  induction ts with
  | nil =>
    intro i d undo d' undo' _ _ j hj
    exact absurd hj (by simp)
  | cons a rest ih =>
    intro i d undo d' undo' hnd h j hj
    simp only [rampGen] at h
    obtain ⟨u', hst⟩ := set_target_data d a
      (.mixed (.ramp ((1 / ((count : ℚ) + 1)) * ((i : ℚ) + 1))) [sf, st]) undo
    rw [hst] at h
    obtain ⟨hnotin, hndrest⟩ := List.nodup_cons.mp hnd
    cases j with
    | zero =>
      have hfr := rampGen_frame count sf st rest (i + 1) _ u' d' undo' h a hnotin
      show d' a = _
      rw [hfr, Function.update_same]
      have heq : (1 / ((count : ℚ) + 1)) * ((i : ℚ) + 1) =
          (1 / ((count : ℚ) + 1)) * (((i : ℚ) + ((0 : Nat) : ℚ)) + 1) := by
        push_cast
        ring
      rw [heq]
    | succ m =>
      have hj' : m < rest.length := by simpa using hj
      have hres := ih (i + 1) _ u' d' undo' hndrest h m hj'
      show d' (rest.get ⟨m, hj'⟩) = _
      rw [hres]
      have heq : (1 / ((count : ℚ) + 1)) * ((((i + 1 : Nat) : ℚ) + (m : ℚ)) + 1) =
          (1 / ((count : ℚ) + 1)) * (((i : ℚ) + (((m + 1 : Nat)) : ℚ)) + 1) := by
        push_cast
        ring
      rw [heq]

/-- C5: if `InsertRamp::apply` succeeds, then (with the targets the successful
`find_targets` allocation returned, which are pairwise distinct) exactly
`count` targets were allocated, and the cell installed at the `i`-th target
holds a `Mixed` element whose mixer is `Ramp` with amount
`(i + 1) / (count + 1)` and whose sources are exactly the handles of the
`from`- and `to`-cells, in that order. -/
theorem insertRamp_ith_target (op : InsertRamp) (data : Data) (d' : Data)
    (u : Undo) (targets : List Address)
    (happly : op.apply data = .ok (d', u))
    (htargets : op.targets data = .ok targets)
    (hnd : targets.Nodup) (j : Nat) (hj : j < targets.length) :
    targets.length = op.count ∧
    d' (targets.get ⟨j, hj⟩) =
      some (.mixed (.ramp (((j : ℚ) + 1) / ((op.count : ℚ) + 1)))
        [op.from_, op.to_]) := by
  have hlen : targets.length = op.count := by
    have ht := htargets
    unfold InsertRamp.targets at ht
    cases hs : op.starting_address data with
    | error e =>
      rw [hs] at ht
      exact Except.noConfusion ht
    | ok s =>
      rw [hs] at ht
      unfold find_targets at ht
      exact findTargetsAux_length data op.overwrite [op.from_, op.to_] _ _ _ _ ht
  refine ⟨hlen, ?_⟩
  unfold InsertRamp.apply at happly
  rw [htargets] at happly
  have happly₂ :
      (match get_source data op.from_ op.make_sources (Undo.new_for op) with
        | .error e => (.error e : Except Error (Data × Undo))
        | .ok (src_from, data₁, undo₁) =>
          match get_source data₁ op.to_ op.make_sources undo₁ with
          | .error e => .error e
          | .ok (src_to, data₂, undo₂) =>
            rampGen op.count src_from src_to targets 0 data₂ undo₂) =
        .ok (d', u) := happly
  clear happly
  cases hg1 : get_source data op.from_ op.make_sources (Undo.new_for op) with
  | error e =>
    rw [hg1] at happly₂
    exact Except.noConfusion happly₂
  | ok r1 =>
    have hsf : r1.1 = op.from_ := get_source_addr _ _ _ _ _ hg1
    obtain ⟨sf, data₁, undo₁⟩ := r1
    rw [hg1] at happly₂
    have happly₃ :
        (match get_source data₁ op.to_ op.make_sources undo₁ with
          | .error e => (.error e : Except Error (Data × Undo))
          | .ok (src_to, data₂, undo₂) =>
            rampGen op.count sf src_to targets 0 data₂ undo₂) =
          .ok (d', u) := happly₂
    clear happly₂
    cases hg2 : get_source data₁ op.to_ op.make_sources undo₁ with
    | error e =>
      rw [hg2] at happly₃
      exact Except.noConfusion happly₃
    | ok r2 =>
      have hst2 : r2.1 = op.to_ := get_source_addr _ _ _ _ _ hg2
      obtain ⟨st, data₂, undo₂⟩ := r2
      rw [hg2] at happly₃
      have happly₄ : rampGen op.count sf st targets 0 data₂ undo₂ =
          .ok (d', u) := happly₃
      dsimp only at hsf hst2
      subst hsf hst2
      have hcontent := rampGen_targets op.count op.from_ op.to_ targets 0
        data₂ undo₂ d' u hnd happly₄ j hj
      rw [hcontent]
      have heq : (1 / ((op.count : ℚ) + 1)) * ((((0 : Nat) : ℚ) + (j : ℚ)) + 1) =
          ((j : ℚ) + 1) / ((op.count : ℚ) + 1) := by
        push_cast
        ring
      rw [heq]

theorem insertRamp_ith_target_witness :
    ∃ d' u,
      InsertRamp.apply ⟨some ⟨0, 0, 2⟩, ⟨0, 0, 0⟩, ⟨0, 0, 1⟩, 1, false, true⟩
          (fun _ => none) = .ok (d', u) ∧
      ([(⟨0, 0, 2⟩ : Address)].length =
        (⟨some ⟨0, 0, 2⟩, ⟨0, 0, 0⟩, ⟨0, 0, 1⟩, 1, false, true⟩ :
          InsertRamp).count ∧
      d' ([(⟨0, 0, 2⟩ : Address)].get ⟨0, by decide⟩) =
        some (.mixed (.ramp ((((0 : Nat) : ℚ) + 1) /
            (((⟨some ⟨0, 0, 2⟩, ⟨0, 0, 0⟩, ⟨0, 0, 1⟩, 1, false, true⟩ :
              InsertRamp).count : ℚ) + 1)))
          [⟨0, 0, 0⟩, ⟨0, 0, 1⟩])) := by
  obtain ⟨d', u, happly⟩ :
      ∃ d' u, InsertRamp.apply
        ⟨some ⟨0, 0, 2⟩, ⟨0, 0, 0⟩, ⟨0, 0, 1⟩, 1, false, true⟩
        (fun _ => none) = .ok (d', u) := ⟨_, _, rfl⟩
  exact ⟨d', u, happly,
    insertRamp_ith_target _ _ d' u [⟨0, 0, 2⟩] happly rfl (by decide) 0
      (by decide)⟩

end Rampeditor
